import Mathlib

/-!
Verification of the CumulusCI namespace-injection and archive-rewriting
utilities.  Strings are modelled as `List Char`, byte buffers as `List Nat`.
Sequential leftmost substring replacement (Python's `str.replace`) is
modelled by `replaceAll` below.
-/

set_option maxRecDepth 10000

/-- Leftmost, non-overlapping substring replacement, with explicit fuel so
that the definition is structurally recursive (the fuel is always at least
the length of the remaining input, and each step consumes at least one
character). -/
def replaceAllF : Nat → List Char → List Char → List Char → List Char
  | 0, _, _, s => s
  | _ + 1, _, _, [] => []
  | f + 1, pat, rep, c :: rest =>
    if pat.isPrefixOf (c :: rest) = true then
      rep ++ replaceAllF f pat rep (List.drop (pat.length - 1) rest)
    else
      c :: replaceAllF f pat rep rest

/-- Modelled from the spec: Python's `str.replace(pat, rep)` on the whole
string (the spec's "replaces every literal occurrence"), for a non-empty
pattern, scanning left to right.  `cumulusci/utils.py` is not included in
the sources, so string substitution is reconstructed from the spec. -/
def replaceAll (pat rep s : List Char) : List Char :=
  replaceAllF s.length pat rep s

/-- Substring-occurrence test: `containsSub xs s` is true iff `xs` occurs
as a contiguous substring of `s`. -/
def containsSub (xs : List Char) : List Char → Bool
  | [] => decide (xs = [])
  | c :: rest => xs.isPrefixOf (c :: rest) || containsSub xs rest

/-- The content placeholder for the managed-package prefix. -/
def nsTok : List Char := "%%%NAMESPACE%%%".data

/-- The content placeholder for the namespaced-org prefix. -/
def nsOrgTok : List Char := "%%%NAMESPACED_ORG%%%".data

/-- The content placeholder for the namespace-or-c ambiguous reference. -/
def nsOrCTok : List Char := "%%%NAMESPACE_OR_C%%%".data

/-- The content placeholder for the namespaced-org-or-c ambiguous
reference. -/
def nsOrgOrCTok : List Char := "%%%NAMESPACED_ORG_OR_C%%%".data

/-- The file-name placeholder for the managed-package prefix. -/
def fileTok : List Char := "___NAMESPACE___".data

/-- Modelled from the spec: `tokenize_namespace` from `cumulusci/utils.py`
(absent from the sources).  When the namespace is empty the inputs are
returned unchanged; otherwise every occurrence of `namespace + "__"` in the
name is replaced by the file-name placeholder, and in the content every
occurrence of `namespace + "__"` is replaced by `%%%NAMESPACE%%%` and every
occurrence of `namespace + ":"` by `%%%NAMESPACE_OR_C%%%` (the colon is part
of the replaced pattern, as pinned by `test_tokenize_namespace`). -/
def tokenize_namespace (name content ns : List Char) : List Char × List Char :=
  if ns = [] then (name, content)
  else
    let pat := ns ++ "__".data
    let name1 := replaceAll pat fileTok name
    let content1 := replaceAll pat nsTok content
    let content2 := replaceAll (ns ++ ":".data) nsOrCTok content1
    (name1, content2)

/-- Modelled from the spec: `inject_namespace` from `cumulusci/utils.py`
(absent from the sources).  The managed-prefix placeholder becomes
`namespace + "__"` when managed else the empty string; the namespaced-org
placeholder becomes `namespace + "__"` when namespaced-org else the empty
string; the ambiguous placeholders become the namespace when the matching
flag is set, else `"c"`; the file-name placeholder becomes
`namespace + "__"` when managed, else it is removed. -/
def inject_namespace (name content ns : List Char)
    (managed namespaced_org : Bool) : List Char × List Char :=
  let nsPre := if managed then ns ++ "__".data else []
  let nsOrg := if namespaced_org then ns ++ "__".data else []
  let nsOrC := if managed then ns else "c".data
  let nsOrgOrC := if namespaced_org then ns else "c".data
  let name1 := replaceAll fileTok nsPre name
  let content1 := replaceAll nsTok nsPre content
  let content2 := replaceAll nsOrgTok nsOrg content1
  let content3 := replaceAll nsOrCTok nsOrC content2
  let content4 := replaceAll nsOrgOrCTok nsOrgOrC content3
  (name1, content4)

/-- Modelled from the spec: `strip_namespace` from `cumulusci/utils.py`
(absent from the sources).  Removes the literal `namespace + "__"` prefix
from the name, replaces `namespace + "__"` occurrences in the content by the
empty string and `namespace + ":"` occurrences by `"c:"`, and reports one
informational log event for the invocation when any replacement occurred.
The returned `Nat` is the number of log events. -/
def strip_namespace (name content ns : List Char) :
    (List Char × List Char) × Nat :=
  let pat := ns ++ "__".data
  let name1 := if pat.isPrefixOf name = true then List.drop pat.length name else name
  let c1 := replaceAll pat [] content
  let content1 := replaceAll (ns ++ ":".data) "c:".data c1
  let logs := if name1 ≠ name ∨ content1 ≠ content then 1 else 0
  ((name1, content1), logs)

theorem replaceAllF_congr (pat rep : List Char) :
    ∀ f₁ f₂ s, s.length ≤ f₁ → s.length ≤ f₂ →
      replaceAllF f₁ pat rep s = replaceAllF f₂ pat rep s := by
  intro f₁
  induction f₁ with
  | zero =>
    intro f₂ s h1 _
    have hs : s = [] := List.eq_nil_of_length_eq_zero (Nat.le_zero.mp h1)
    subst hs
    cases f₂ <;> rfl
  | succ f ih =>
    intro f₂ s h1 h2
    cases s with
    | nil => cases f₂ <;> rfl
    | cons c rest =>
      cases f₂ with
      | zero => simp at h2
      | succ g =>
        simp only [List.length_cons, Nat.succ_le_succ_iff] at h1 h2
        simp only [replaceAllF]
        by_cases hp : pat.isPrefixOf (c :: rest) = true
        · rw [if_pos hp, if_pos hp]
          congr 1
          apply ih
          · have := List.length_drop (pat.length - 1) rest
            omega
          · have := List.length_drop (pat.length - 1) rest
            omega
        · rw [if_neg hp, if_neg hp]
          congr 1
          exact ih g rest h1 h2

theorem replaceAll_nil (pat rep : List Char) : replaceAll pat rep [] = [] := rfl

theorem replaceAll_cons (pat rep : List Char) (c : Char) (rest : List Char) :
    replaceAll pat rep (c :: rest) =
      if pat.isPrefixOf (c :: rest) = true then
        rep ++ replaceAll pat rep (List.drop (pat.length - 1) rest)
      else
        c :: replaceAll pat rep rest := by
  show replaceAllF (rest.length + 1) pat rep (c :: rest) = _
  simp only [replaceAllF]
  by_cases hp : pat.isPrefixOf (c :: rest) = true
  · rw [if_pos hp, if_pos hp]
    congr 1
    apply replaceAllF_congr
    · have := List.length_drop (pat.length - 1) rest
      omega
    · exact Nat.le_refl _
  · rw [if_neg hp, if_neg hp]
    rfl

theorem prefix_decomp (pat : List Char) (c : Char) (rest : List Char)
    (hpat : pat ≠ []) (hp : pat.isPrefixOf (c :: rest) = true) :
    c :: rest = pat ++ List.drop (pat.length - 1) rest := by
  obtain ⟨t, ht⟩ := List.isPrefixOf_iff_prefix.mp hp
  obtain ⟨p0, ps, rfl⟩ := List.exists_cons_of_ne_nil hpat
  simp only [List.cons_append] at ht
  obtain ⟨h1, h2⟩ := List.cons.injEq .. ▸ ht
  cases ht
  simp [List.drop_left ps t]

theorem replaceAll_of_not_contains (pat rep : List Char) :
    ∀ s, containsSub pat s = false → replaceAll pat rep s = s := by
  intro s
  induction s with
  | nil => intro _; rfl
  | cons c rest ih =>
    intro h
    simp only [containsSub, Bool.or_eq_false_iff] at h
    rw [replaceAll_cons, if_neg (by simp [h.1]), ih h.2]

theorem not_contains_of_char (pat : List Char) (f : Char) (hf : f ∈ pat) :
    ∀ s, f ∉ s → containsSub pat s = false := by
  intro s
  induction s with
  | nil =>
    intro _
    have : pat ≠ [] := List.ne_nil_of_mem hf
    simp [containsSub, this]
  | cons c rest ih =>
    intro hs
    simp only [containsSub, Bool.or_eq_false_iff]
    constructor
    · by_contra hp
      rw [Bool.not_eq_false] at hp
      exact hs ((List.isPrefixOf_iff_prefix.mp hp).subset hf)
    · exact ih (fun hm => hs (List.mem_cons_of_mem c hm))

theorem forward_char_pos (pat tok : List Char) (f : Char) (k : Nat)
    (hbefore : ∀ j, j < k → tok[j]? ≠ some f) :
    ∀ n s, s.length ≤ n → f ∉ s →
      ∀ i, (replaceAll pat tok s)[i]? = some f → k ≤ i := by
  intro n
  induction n with
  | zero =>
    intro s hn _ i hi
    have hs : s = [] := List.eq_nil_of_length_eq_zero (Nat.le_zero.mp hn)
    subst hs
    simp [replaceAll_nil] at hi
  | succ n ih =>
    intro s hn hf i hi
    cases s with
    | nil => simp [replaceAll_nil] at hi
    | cons c rest =>
      simp only [List.length_cons, Nat.succ_le_succ_iff] at hn
      rw [replaceAll_cons] at hi
      by_cases hp : pat.isPrefixOf (c :: rest) = true
      · rw [if_pos hp] at hi
        rw [List.getElem?_append] at hi
        by_cases hlt : i < tok.length
        · rw [if_pos hlt] at hi
          by_contra hki
          exact hbefore i (by omega) hi
        · rw [if_neg hlt] at hi
          have hmem : f ∉ List.drop (pat.length - 1) rest := fun hm =>
            hf (List.mem_cons_of_mem c (List.drop_subset _ rest hm))
          have hlen : (List.drop (pat.length - 1) rest).length ≤ n := by
            have := List.length_drop (pat.length - 1) rest
            omega
          have := ih _ hlen hmem _ hi
          omega
      · rw [if_neg hp] at hi
        cases i with
        | zero =>
          simp only [List.getElem?_cons_zero, Option.some.injEq] at hi
          exact absurd (hi ▸ List.mem_cons_self c rest) hf
        | succ j =>
          simp only [List.getElem?_cons_succ] at hi
          have hmem : f ∉ rest := fun hm => hf (List.mem_cons_of_mem c hm)
          have := ih rest hn hmem j hi
          omega

theorem replaceAll_roundtrip (pat tok : List Char) (f : Char) (k : Nat)
    (hpat : pat ≠ []) (hk1 : 1 ≤ k) (hk : tok[k]? = some f)
    (hbefore : ∀ j, j < k → tok[j]? ≠ some f) :
    ∀ n s, s.length ≤ n → f ∉ s →
      replaceAll tok pat (replaceAll pat tok s) = s := by
  have htoklen : k < tok.length := (List.getElem?_eq_some.mp hk).1
  have htok : tok ≠ [] := by
    intro h
    rw [h] at htoklen
    simp at htoklen
  intro n
  induction n with
  | zero =>
    intro s hn _
    have hs : s = [] := List.eq_nil_of_length_eq_zero (Nat.le_zero.mp hn)
    subst hs
    rfl
  | succ n ih =>
    intro s hn hf
    cases s with
    | nil => rfl
    | cons c rest =>
      simp only [List.length_cons, Nat.succ_le_succ_iff] at hn
      by_cases hp : pat.isPrefixOf (c :: rest) = true
      · rw [replaceAll_cons, if_pos hp]
        have htmem : f ∉ List.drop (pat.length - 1) rest := fun hm =>
          hf (List.mem_cons_of_mem c (List.drop_subset _ rest hm))
        have htlen : (List.drop (pat.length - 1) rest).length ≤ n := by
          have := List.length_drop (pat.length - 1) rest
          omega
        have hdec : c :: rest = pat ++ List.drop (pat.length - 1) rest :=
          prefix_decomp pat c rest hpat hp
        obtain ⟨t0, tk, htk⟩ := List.exists_cons_of_ne_nil htok
        rw [htk, List.cons_append, replaceAll_cons]
        rw [if_pos (by
          rw [← List.cons_append, ← htk]
          exact List.isPrefixOf_iff_prefix.mpr (List.prefix_append tok _))]
        have hlen2 : (t0 :: tk).length - 1 = tk.length := by simp
        rw [hlen2, List.drop_left, ← htk, ih _ htlen htmem]
        exact hdec.symm
      · rw [replaceAll_cons, if_neg hp]
        have hmem : f ∉ rest := fun hm => hf (List.mem_cons_of_mem c hm)
        rw [replaceAll_cons]
        rw [if_neg (by
          intro hcontra
          have hidx : (c :: replaceAll pat tok rest)[k]? = some f := by
            obtain ⟨t2, ht2⟩ := List.isPrefixOf_iff_prefix.mp hcontra
            rw [← ht2, List.getElem?_append, if_pos htoklen]
            exact hk
          obtain ⟨j, rfl⟩ : ∃ j, k = j + 1 := ⟨k - 1, by omega⟩
          simp only [List.getElem?_cons_succ] at hidx
          have := forward_char_pos pat tok f (j + 1) hbefore n rest hn hmem j hidx
          omega)]
        rw [ih rest hn hmem]

theorem containsSub_append_right (xs : List Char) :
    ∀ a b, containsSub xs b = true → containsSub xs (a ++ b) = true := by
  intro a
  induction a with
  | nil => intro b h; simpa using h
  | cons d a' ih =>
    intro b h
    simp only [List.cons_append, containsSub, Bool.or_eq_true]
    exact Or.inr (ih b h)

theorem containsSub_append_elim (xs : List Char) (hxs : xs ≠ []) :
    ∀ a b, (∀ c ∈ xs, c ∉ a) → containsSub xs (a ++ b) = true →
      containsSub xs b = true := by
  intro a
  induction a with
  | nil => intro b _ h; simpa using h
  | cons d a' ih =>
    intro b hd h
    simp only [List.cons_append, containsSub, Bool.or_eq_true] at h
    rcases h with h | h
    · obtain ⟨x, xs', rfl⟩ := List.exists_cons_of_ne_nil hxs
      simp only [List.isPrefixOf, Bool.and_eq_true, beq_iff_eq] at h
      exact absurd (List.mem_cons_self d a') (h.1 ▸ hd x (List.mem_cons_self x xs'))
    · exact ih b (fun c hc hm => hd c hc (List.mem_cons_of_mem d hm)) h

theorem isPrefixOf_replaceAll (pat tok : List Char) (htok : tok ≠ []) :
    ∀ (n : Nat) (s xs : List Char), s.length ≤ n → (∀ c ∈ xs, c ∉ tok) →
      xs.isPrefixOf (replaceAll pat tok s) = true → xs.isPrefixOf s = true := by
  intro n
  induction n with
  | zero =>
    intro s xs hn _ h
    have hs : s = [] := List.eq_nil_of_length_eq_zero (Nat.le_zero.mp hn)
    subst hs
    simpa [replaceAll_nil] using h
  | succ n ih =>
    intro s xs hn hdisj h
    cases s with
    | nil => simpa [replaceAll_nil] using h
    | cons c rest =>
      simp only [List.length_cons, Nat.succ_le_succ_iff] at hn
      cases xs with
      | nil => rfl
      | cons x xs' =>
        rw [replaceAll_cons] at h
        by_cases hp : pat.isPrefixOf (c :: rest) = true
        · rw [if_pos hp] at h
          obtain ⟨t0, tk, rfl⟩ := List.exists_cons_of_ne_nil htok
          simp only [List.cons_append, List.isPrefixOf, Bool.and_eq_true,
            beq_iff_eq] at h
          exact absurd (List.mem_cons_self t0 tk)
            (h.1 ▸ hdisj x (List.mem_cons_self x xs'))
        · rw [if_neg hp] at h
          simp only [List.isPrefixOf, Bool.and_eq_true, beq_iff_eq] at h ⊢
          refine ⟨h.1, ?_⟩
          exact ih rest xs' hn
            (fun e he hm => hdisj e (List.mem_cons_of_mem x he) hm) h.2

theorem containsSub_replaceAll (pat tok : List Char) (htok : tok ≠ []) :
    ∀ (n : Nat) (s xs : List Char), s.length ≤ n → xs ≠ [] → (∀ c ∈ xs, c ∉ tok) →
      containsSub xs (replaceAll pat tok s) = true → containsSub xs s = true := by
  intro n
  induction n with
  | zero =>
    intro s xs hn hxs _ h
    have hs : s = [] := List.eq_nil_of_length_eq_zero (Nat.le_zero.mp hn)
    subst hs
    simp only [replaceAll_nil, containsSub, decide_eq_true_eq] at h
    exact absurd h hxs
  | succ n ih =>
    intro s xs hn hxs hdisj h
    cases s with
    | nil =>
      simp only [replaceAll_nil, containsSub, decide_eq_true_eq] at h
      exact absurd h hxs
    | cons c rest =>
      simp only [List.length_cons, Nat.succ_le_succ_iff] at hn
      rw [replaceAll_cons] at h
      by_cases hp : pat.isPrefixOf (c :: rest) = true
      · rw [if_pos hp] at h
        have h2 := containsSub_append_elim xs hxs tok _ hdisj h
        have hlen : (List.drop (pat.length - 1) rest).length ≤ n := by
          have := List.length_drop (pat.length - 1) rest
          omega
        have h3 := ih _ xs hlen hxs hdisj h2
        have h4 : containsSub xs rest = true := by
          have := containsSub_append_right xs (List.take (pat.length - 1) rest)
            (List.drop (pat.length - 1) rest) h3
          rwa [List.take_append_drop] at this
        simp only [containsSub, Bool.or_eq_true]
        exact Or.inr h4
      · rw [if_neg hp] at h
        simp only [containsSub, Bool.or_eq_true] at h ⊢
        rcases h with h | h
        · have hpre : xs.isPrefixOf (replaceAll pat tok (c :: rest)) = true := by
            rw [replaceAll_cons, if_neg hp]
            exact h
          exact Or.inl (isPrefixOf_replaceAll pat tok htok (n + 1) (c :: rest) xs
            (by simpa using Nat.succ_le_succ hn) hdisj hpre)
        · exact Or.inr (ih rest xs hn hxs hdisj h)

/-- C1 counterexample: the tokenize/inject round-trip fails for content
containing the colon-style reference pattern `ns:`.  Tokenizing
`"ns:test"` consumes the colon (producing `%%%NAMESPACE_OR_C%%%test`) and
injecting with managed namespace `ns` yields `"nstest"`, not `"ns:test"`. -/
theorem c1_roundtrip_colon_counterexample :
    inject_namespace (tokenize_namespace "x".data "ns:test".data "ns".data).1
      (tokenize_namespace "x".data "ns:test".data "ns".data).2 "ns".data true false
      ≠ ("x".data, "ns:test".data) := by decide

/-- C1 (amended): the tokenize/inject round-trip holds with managed=true and
either setting of namespaced_org, for every non-empty namespace whose
characters do not occur in the placeholder token `%%%NAMESPACE%%%`, and for
every name and content that do not contain the character `N` (so they contain
no placeholder fragment), provided the content does not contain the
colon-style pattern `ns + ":"` (which tokenize does not round-trip). -/
theorem c1_tokenize_inject_roundtrip (ns name content : List Char) (b : Bool)
    (h1 : ns ≠ [])
    (h2 : 'N' ∉ name)
    (h3 : 'N' ∉ content)
    (h4 : ∀ c ∈ ns, c ∉ nsTok)
    (h5 : containsSub (ns ++ ":".data) content = false) :
    inject_namespace (tokenize_namespace name content ns).1
      (tokenize_namespace name content ns).2 ns true b = (name, content) := by
  have hdisj : ∀ c ∈ ns ++ ":".data, c ∉ nsTok := by
    intro c hc
    rcases List.mem_append.mp hc with hcns | hcc
    · exact h4 c hcns
    · have hc2 : c = ':' := by simpa using hcc
      subst hc2
      decide
  have key2 : containsSub (ns ++ ":".data)
      (replaceAll (ns ++ "__".data) nsTok content) = false := by
    rw [Bool.eq_false_iff]
    intro hcc
    have := containsSub_replaceAll (ns ++ "__".data) nsTok (by decide)
      content.length content (ns ++ ":".data) (Nat.le_refl _)
      (by simp) hdisj hcc
    rw [h5] at this
    exact Bool.false_ne_true this
  have hstep : tokenize_namespace name content ns =
      (replaceAll (ns ++ "__".data) fileTok name,
       replaceAll (ns ++ "__".data) nsTok content) := by
    simp only [tokenize_namespace, if_neg h1]
    rw [replaceAll_of_not_contains _ _ _ key2]
  have hname := replaceAll_roundtrip (ns ++ "__".data) fileTok 'N' 3
    (by simp) (by omega) (by decide)
    (by intro j hj; interval_cases j <;> decide)
    name.length name (Nat.le_refl _) h2
  have hcontent := replaceAll_roundtrip (ns ++ "__".data) nsTok 'N' 3
    (by simp) (by omega) (by decide)
    (by intro j hj; interval_cases j <;> decide)
    content.length content (Nat.le_refl _) h3
  have hno1 : containsSub nsOrgTok content = false :=
    not_contains_of_char nsOrgTok 'N' (by decide) content h3
  have hno2 : containsSub nsOrCTok content = false :=
    not_contains_of_char nsOrCTok 'N' (by decide) content h3
  have hno3 : containsSub nsOrgOrCTok content = false :=
    not_contains_of_char nsOrgOrCTok 'N' (by decide) content h3
  rw [hstep]
  simp only [inject_namespace, if_true]
  rw [hcontent, replaceAll_of_not_contains nsOrgTok _ content hno1,
      replaceAll_of_not_contains nsOrCTok _ content hno2,
      replaceAll_of_not_contains nsOrgOrCTok _ content hno3, hname]

/-- C1 witness: the amended round-trip at namespace `ns`, name `ns__test`,
content `ns__test abc`, with managed=true. -/
theorem c1_roundtrip_witness :
    inject_namespace
      (tokenize_namespace "ns__test".data "ns__test abc".data "ns".data).1
      (tokenize_namespace "ns__test".data "ns__test abc".data "ns".data).2
      "ns".data true false = ("ns__test".data, "ns__test abc".data) :=
  c1_tokenize_inject_roundtrip "ns".data "ns__test".data "ns__test abc".data
    false (by decide) (by decide) (by decide) (by decide) (by decide)

/-- C2: injecting the name `___NAMESPACE___test` and the content consisting
of the four placeholder tokens joined by `|` with namespace `ns` yields
`ns__test` / `ns__||ns|c` when managed, `test` / `||c|c` when neither flag
is set, and `ns__test` / `ns__|ns__|ns|ns` when managed and namespaced-org.
-/
theorem c2_inject_namespace_scenarios :
    inject_namespace "___NAMESPACE___test".data
        (nsTok ++ "|".data ++ nsOrgTok ++ "|".data ++ nsOrCTok ++ "|".data
          ++ nsOrgOrCTok) "ns".data true false
      = ("ns__test".data, "ns__||ns|c".data)
    ∧ inject_namespace "___NAMESPACE___test".data
        (nsTok ++ "|".data ++ nsOrgTok ++ "|".data ++ nsOrCTok ++ "|".data
          ++ nsOrgOrCTok) "ns".data false false
      = ("test".data, "||c|c".data)
    ∧ inject_namespace "___NAMESPACE___test".data
        (nsTok ++ "|".data ++ nsOrgTok ++ "|".data ++ nsOrCTok ++ "|".data
          ++ nsOrgOrCTok) "ns".data true true
      = ("ns__test".data, "ns__|ns__|ns|ns".data) := by
  refine ⟨by decide, by decide, by decide⟩

/-- C3: stripping name `ns__test` and content `ns__test ns:test` with
namespace `ns` yields `test` / `test c:test` and exactly one informational
log event. -/
theorem c3_strip_namespace_scenario :
    strip_namespace "ns__test".data "ns__test ns:test".data "ns".data
      = (("test".data, "test c:test".data), 1) := by decide

/-- C8: tokenizing with the empty namespace returns the name and content
unchanged, for every name and content; in particular no substitution of the
bare `__` or `:` patterns is attempted. -/
theorem c8_tokenize_empty_namespace (name content : List Char) :
    tokenize_namespace name content [] = (name, content) := by
  simp [tokenize_namespace]

/-- UTF-8 encoding of one unicode scalar value (as held by a `Char`). -/
def utf8EncodeChar (c : Char) : List Nat :=
  let n := c.toNat
  if n < 0x80 then [n]
  else if n < 0x800 then
    [0xC0 + n / 64, 0x80 + n % 64]
  else if n < 0x10000 then
    [0xE0 + n / 4096, 0x80 + (n / 64) % 64, 0x80 + n % 64]
  else
    [0xF0 + n / 262144, 0x80 + (n / 4096) % 64, 0x80 + (n / 64) % 64,
     0x80 + n % 64]

/-- UTF-8 encoding of a string (list of characters) into bytes. -/
def utf8Encode (s : List Char) : List Nat :=
  match s with
  | [] => []
  | c :: rest => utf8EncodeChar c ++ utf8Encode rest

/-- Whether a byte is a UTF-8 continuation byte (`0x80`–`0xBF`). -/
def isCont (b : Nat) : Bool := decide (0x80 ≤ b ∧ b ≤ 0xBF)

/-- Strict UTF-8 decoding with explicit fuel (the fuel is at least the
number of remaining bytes; each step consumes at least one byte).  Rejects
overlong encodings, surrogates, values above `U+10FFFF`, and truncated or
stray continuation bytes, exactly as Python's `bytes.decode("utf-8")`. -/
def utf8DecodeF : Nat → List Nat → Option (List Char)
  | 0, l => match l with | [] => some [] | _ => none
  | _ + 1, [] => some []
  | f + 1, b :: rest =>
    if b < 0x80 then
      (utf8DecodeF f rest).map (fun cs => Char.ofNat b :: cs)
    else if 0xC2 ≤ b ∧ b ≤ 0xDF then
      match rest with
      | b2 :: r2 =>
        if isCont b2 = true then
          (utf8DecodeF f r2).map
            (fun cs => Char.ofNat ((b - 0xC0) * 64 + (b2 - 0x80)) :: cs)
        else none
      | [] => none
    else if 0xE0 ≤ b ∧ b ≤ 0xEF then
      match rest with
      | b2 :: b3 :: r3 =>
        if (if b = 0xE0 then decide (0xA0 ≤ b2 ∧ b2 ≤ 0xBF)
            else if b = 0xED then decide (0x80 ≤ b2 ∧ b2 ≤ 0x9F)
            else isCont b2) = true ∧ isCont b3 = true then
          (utf8DecodeF f r3).map
            (fun cs => Char.ofNat
              ((b - 0xE0) * 4096 + (b2 - 0x80) * 64 + (b3 - 0x80)) :: cs)
        else none
      | _ => none
    else if 0xF0 ≤ b ∧ b ≤ 0xF4 then
      match rest with
      | b2 :: b3 :: b4 :: r4 =>
        if (if b = 0xF0 then decide (0x90 ≤ b2 ∧ b2 ≤ 0xBF)
            else if b = 0xF4 then decide (0x80 ≤ b2 ∧ b2 ≤ 0x8F)
            else isCont b2) = true ∧ isCont b3 = true ∧ isCont b4 = true then
          (utf8DecodeF f r4).map
            (fun cs => Char.ofNat
              ((b - 0xF0) * 262144 + (b2 - 0x80) * 4096 + (b3 - 0x80) * 64
                + (b4 - 0x80)) :: cs)
        else none
      | _ => none
    else none

/-- Strict UTF-8 decoding of a byte list; `none` when the bytes are not
valid UTF-8. -/
def utf8Decode (l : List Nat) : Option (List Char) :=
  utf8DecodeF l.length l

/-- Modelled from the spec: the binary/text classifier of
`cumulusci/utils.py` (absent from the sources).  A buffer is binary exactly
when it is not decodable as UTF-8 (the rewriters decode entries as UTF-8 and
treat a decode failure as binary). -/
def is_binary (content : List Nat) : Bool := (utf8Decode content).isNone

/-- An entry of a container (directory tree or zip archive): a name and a
byte content. -/
structure Entry where
  name : List Char
  content : List Nat
deriving DecidableEq

/-- Modelled from the spec: the per-entry step shared by
`process_text_in_directory` and `process_text_in_zipfile` from
`cumulusci/utils.py` (absent from the sources).  Binary entries (those whose
bytes do not decode as UTF-8) are passed through unchanged; text entries are
decoded, transformed by the supplied `(name, content)` function, and
re-encoded. -/
def processTextEntry (f : List Char → List Char → List Char × List Char)
    (e : Entry) : Entry :=
  match utf8Decode e.content with
  | none => e
  | some txt =>
    let r := f e.name txt
    { name := r.1, content := utf8Encode r.2 }

/-- Modelled from the spec: `process_text_in_directory` from
`cumulusci/utils.py` (absent from the sources), with the directory tree
abstracted as its list of entries in walk order. -/
def process_text_in_directory
    (f : List Char → List Char → List Char × List Char)
    (entries : List Entry) : List Entry :=
  entries.map (processTextEntry f)

/-- Modelled from the spec: `process_text_in_zipfile` from
`cumulusci/utils.py` (absent from the sources), with the archive abstracted
as its list of members in member order. -/
def process_text_in_zipfile
    (f : List Char → List Char → List Char × List Char)
    (entries : List Entry) : List Entry :=
  entries.map (processTextEntry f)

mutual
/-- An XML node: a text node or an element with a tag and children.  Tags
are matched by local name, per the spec's XML collaborator contract. -/
inductive XmlNode where
  | text : List Char → XmlNode
  | element : List Char → XmlForest → XmlNode
/-- A list of sibling XML nodes (a separate mutual inductive so that all
recursion over the tree is structural). -/
inductive XmlForest where
  | nil : XmlForest
  | cons : XmlNode → XmlForest → XmlForest
end

/-- The tag of an XML node (`none` for a text node). -/
def nodeTag : XmlNode → Option (List Char)
  | .text _ => none
  | .element t _ => some t

mutual
/-- Modelled from the spec: `remove_xml_element` from `cumulusci/utils.py`
(absent from the sources): removes every element matching the given tag at
any depth below the given node (the root node itself is never removed,
matching `findall(".//tag")`). -/
def removeXmlElement (tag : List Char) : XmlNode → XmlNode
  | .text s => .text s
  | .element t cs => .element t (removeXmlForest tag cs)
/-- Forest version of `removeXmlElement`: matching siblings are dropped and
the remaining ones are cleaned recursively. -/
def removeXmlForest (tag : List Char) : XmlForest → XmlForest
  | .nil => .nil
  | .cons c cs =>
    if nodeTag c = some tag then removeXmlForest tag cs
    else .cons (removeXmlElement tag c) (removeXmlForest tag cs)
end

mutual
/-- True iff no element strictly below the given node has the given tag
(the root's own tag is not considered, matching `findall(".//tag")`). -/
def freeOfTag (tag : List Char) : XmlNode → Bool
  | .text _ => true
  | .element _ cs => freeOfTagF tag cs
/-- Forest version of `freeOfTag`: no member of the forest, nor any of its
descendants, has the given tag. -/
def freeOfTagF (tag : List Char) : XmlForest → Bool
  | .nil => true
  | .cons c cs =>
    if nodeTag c = some tag then false
    else freeOfTag tag c && freeOfTagF tag cs
end

theorem nodeTag_removeXmlElement (tag : List Char) (x : XmlNode) :
    nodeTag (removeXmlElement tag x) = nodeTag x := by
  cases x <;> rfl

mutual
theorem freeOfTag_removeXmlElement (tag : List Char) :
    ∀ x : XmlNode, freeOfTag tag (removeXmlElement tag x) = true
  | .text _ => rfl
  | .element t cs => by
    simp only [removeXmlElement, freeOfTag]
    exact freeOfTagF_removeXmlForest tag cs
theorem freeOfTagF_removeXmlForest (tag : List Char) :
    ∀ cs : XmlForest, freeOfTagF tag (removeXmlForest tag cs) = true
  | .nil => rfl
  | .cons c cs => by
    simp only [removeXmlForest]
    by_cases h : nodeTag c = some tag
    · rw [if_pos h]
      exact freeOfTagF_removeXmlForest tag cs
    · rw [if_neg h]
      simp only [freeOfTagF, nodeTag_removeXmlElement, if_neg h,
        Bool.and_eq_true]
      exact ⟨freeOfTag_removeXmlElement tag c, freeOfTagF_removeXmlForest tag cs⟩
end

mutual
theorem removeXmlElement_of_freeOfTag (tag : List Char) :
    ∀ x : XmlNode, freeOfTag tag x = true → removeXmlElement tag x = x
  | .text _, _ => rfl
  | .element t cs, h => by
    simp only [freeOfTag] at h
    simp only [removeXmlElement]
    rw [removeXmlForest_of_freeOfTagF tag cs h]
theorem removeXmlForest_of_freeOfTagF (tag : List Char) :
    ∀ cs : XmlForest, freeOfTagF tag cs = true → removeXmlForest tag cs = cs
  | .nil, _ => rfl
  | .cons c cs, h => by
    simp only [freeOfTagF] at h
    by_cases hc : nodeTag c = some tag
    · rw [if_pos hc] at h
      exact absurd h Bool.false_ne_true
    · rw [if_neg hc, Bool.and_eq_true] at h
      simp only [removeXmlForest, if_neg hc]
      rw [removeXmlElement_of_freeOfTag tag c h.1,
        removeXmlForest_of_freeOfTagF tag cs h.2]
end

/-- An XML parse error: the parser message and the line number. -/
structure XmlError where
  msg : List Char
  lineno : Nat
deriving DecidableEq

/-- Decimal digit character for a value below ten. -/
def digitChar (n : Nat) : Char := Char.ofNat (48 + n)

/-- Decimal digits of a natural number, with structural fuel. -/
def natCharsF : Nat → Nat → List Char
  | 0, _ => []
  | f + 1, n =>
    if n < 10 then [digitChar n]
    else natCharsF f (n / 10) ++ [digitChar (n % 10)]

/-- Decimal representation of a natural number as characters. -/
def natToChars (n : Nat) : List Char := natCharsF (n + 1) n

/-- The annotation appended to a parse-error message: the entry name and
line number in the form `<msg> (<name>, line <n>)`. -/
def annotateMsg (msg name : List Char) (lineno : Nat) : List Char :=
  msg ++ " (".data ++ name ++ ", line ".data ++ natToChars lineno ++ ")".data

/-- Modelled from the spec: `elementtree_parse_file` from
`cumulusci/utils.py` (absent from the sources).  The underlying parser's
outcome for the named file is passed in; on failure the error message is
rewritten to `<msg> (<path>, line <lineno>)` and the error is re-raised. -/
def elementtree_parse_file (result : Except XmlError XmlNode)
    (path : List Char) : Except XmlError XmlNode :=
  match result with
  | .ok t => .ok t
  | .error pe => .error ⟨annotateMsg pe.msg path pe.lineno, pe.lineno⟩

/-- Fail-fast effectful map over a list: the first error aborts the whole
traversal. -/
def exceptMapList {α β ε : Type} (f : α → Except ε β) : List α → Except ε (List β)
  | [] => .ok []
  | a :: as =>
    match f a with
    | .error e => .error e
    | .ok b =>
      match exceptMapList f as with
      | .error e => .error e
      | .ok bs => .ok (b :: bs)

/-- Modelled from the spec: `remove_xml_element_directory` from
`cumulusci/utils.py` (absent from the sources), restricted to the behaviour
the claims are about: each file of the directory is parsed via
`elementtree_parse_file` (which annotates failures with the file name and
line number) and cleaned with `removeXmlElement`; the first parse error
aborts the whole operation. -/
def remove_xml_element_directory
    (parseFile : List Char → Except XmlError XmlNode) (tag : List Char)
    (names : List (List Char)) : Except XmlError (List XmlNode) :=
  exceptMapList
    (fun nm => (elementtree_parse_file (parseFile nm) nm).map
      (removeXmlElement tag)) names

/-- The canonical XML declaration emitted when a document is re-serialized,
followed by the newline that `ElementTree.tostring` emits after it. -/
def xmlDecl : List Char := "<?xml version='1.0' encoding='UTF-8'?>\n".data

/-- The suffix that selects the entries cleaned by `zip_clean_metaxml`. -/
def metaSuffix : List Char := "-meta.xml".data

/-- Modelled from the spec: the per-entry transform of `zip_clean_metaxml`
from `cumulusci/utils.py` (absent from the sources).  Entries whose name
does not end in `-meta.xml` pass through; entries that do not decode as
UTF-8 pass through (binary guard); parse failures abort; when the tag is
not found below the root the original bytes are returned unchanged;
otherwise the matching elements are removed and the document is
re-serialized behind the canonical XML declaration, using the supplied
serializer for the body. -/
def zipCleanEntry (parseXml : List Char → Except XmlError XmlNode)
    (ser : XmlNode → List Char) (tag : List Char) (e : Entry) :
    Except XmlError Entry :=
  if metaSuffix.isSuffixOf e.name = true then
    match utf8Decode e.content with
    | none => .ok e
    | some txt =>
      match parseXml txt with
      | .error pe => .error pe
      | .ok tree =>
        if freeOfTag tag tree = true then .ok e
        else .ok { name := e.name,
                   content := utf8Encode (xmlDecl ++ ser (removeXmlElement tag tree)) }
  else .ok e

/-- Modelled from the spec: `zip_clean_metaxml` from `cumulusci/utils.py`
(absent from the sources): rewrites every `-meta.xml` member of the archive
by removing `packageVersions` elements, leaving every other member
unchanged; the first parse failure aborts. -/
def zip_clean_metaxml (parseXml : List Char → Except XmlError XmlNode)
    (ser : XmlNode → List Char) (entries : List Entry) :
    Except XmlError (List Entry) :=
  exceptMapList (zipCleanEntry parseXml ser "packageVersions".data) entries

/-- The options consumed by `GenerateDataFromYaml._init_options`
(`cumulusci/tasks/bulkdata/generate_from_yaml.py`).  `generator_yaml` is a
required option; the rest, including the task-declared `vars` option, are
optional (`none` when absent). -/
structure GenOptions where
  generator_yaml : List Char
  vars : Option (List Char)
  generate_mapping_file : Option (List Char)
  num_records : Option Nat
  num_records_tablename : Option (List Char)
  working_directory : Option (List Char)

/-- The task state produced by a successful
`GenerateDataFromYaml._init_options`.  `vars` is the parsed variable
dictionary (`{}` in `__init__`, overwritten when the option is present). -/
structure InitedTask where
  yaml_file : List Char
  vars : List (List Char × List Char)
  generate_mapping_file : Option (List Char)
  stopping_criteria : Option (List Char × Nat)
  working_directory : Option (List Char)
deriving DecidableEq

/-- `GenerateDataFromYaml._init_options` from
`src/cumulusci/tasks/bulkdata/generate_from_yaml.py` (lines 58-80),
translated with the filesystem (`pathExists`), `os.path.abspath`
(`abspath`), and `process_list_of_pairs_dict_arg` (`processVars`, from
`cumulusci.core.utils`, outside the given sources and therefore an
arbitrary, possibly failing collaborator) as parameters; `TaskOptionsError`
is the error type, carrying its message.  When the `vars` option is present
it is parsed by `processVars` before the remaining options are read, and a
parse failure propagates (lines 63-64).  The base-class option handling
lives outside the given sources and is not modelled.  An empty
`num_records_tablename` is falsy in Python, hence rejected like an absent
one; an empty `generate_mapping_file` is falsy and is not made absolute. -/
def init_options (pathExists : List Char → Bool) (abspath : List Char → List Char)
    (processVars : List Char → Except (List Char) (List (List Char × List Char)))
    (o : GenOptions) : Except (List Char) InitedTask :=
  let yaml_file := abspath o.generator_yaml
  if pathExists yaml_file = false then
    .error ("Cannot find ".data ++ yaml_file)
  else
    match (match o.vars with
           | none => Except.ok []
           | some v => processVars v) with
    | .error e => .error e
    | .ok vs =>
      let gmf := match o.generate_mapping_file with
        | none => none
        | some s => if s = [] then some s else some (abspath s)
      match o.num_records with
      | none =>
        .ok { yaml_file := yaml_file, vars := vs, generate_mapping_file := gmf,
              stopping_criteria := none,
              working_directory := o.working_directory }
      | some n =>
        match o.num_records_tablename with
        | none =>
          .error "Cannot specify num_records without num_records_tablename.".data
        | some t =>
          if t = [] then
            .error "Cannot specify num_records without num_records_tablename.".data
          else
            .ok { yaml_file := yaml_file, vars := vs,
                  generate_mapping_file := gmf,
                  stopping_criteria := some (t, n),
                  working_directory := o.working_directory }

/-- Whether an `Except` computation succeeded. -/
def exceptIsOk {ε α : Type} : Except ε α → Bool
  | .ok _ => true
  | .error _ => false

theorem exceptMapList_length {α β ε : Type} (f : α → Except ε β) :
    ∀ (l : List α) (out : List β), exceptMapList f l = .ok out →
      out.length = l.length := by
  intro l
  induction l with
  | nil =>
    intro out h
    simp only [exceptMapList] at h
    cases h
    rfl
  | cons a as ih =>
    intro out h
    simp only [exceptMapList] at h
    cases hfa : f a with
    | error e => rw [hfa] at h; cases h
    | ok b =>
      rw [hfa] at h
      cases hrec : exceptMapList f as with
      | error e => rw [hrec] at h; cases h
      | ok bs =>
        rw [hrec] at h
        cases h
        simp [ih bs hrec]

theorem exceptMapList_mem_of_fixed {α β ε : Type} (f : α → Except ε β)
    (g : α → β) :
    ∀ (l : List α) (out : List β), exceptMapList f l = .ok out →
      ∀ a ∈ l, f a = .ok (g a) → g a ∈ out := by
  intro l
  induction l with
  | nil => intro out _ a ha; cases ha
  | cons x xs ih =>
    intro out h a ha hfa
    simp only [exceptMapList] at h
    cases hfx : f x with
    | error e => rw [hfx] at h; cases h
    | ok b =>
      rw [hfx] at h
      cases hrec : exceptMapList f xs with
      | error e => rw [hrec] at h; cases h
      | ok bs =>
        rw [hrec] at h
        cases h
        rcases List.mem_cons.mp ha with rfl | hmem
        · rw [hfa] at hfx
          cases hfx
          exact List.mem_cons_self _ _
        · exact List.mem_cons_of_mem _ (ih bs hrec a hmem hfa)

theorem exceptMapList_error_of_mem {α β ε : Type} (f : α → Except ε β)
    (err : ε) :
    ∀ (l : List α) (a : α), a ∈ l → f a = .error err →
      (∀ x ∈ l, x ≠ a → exceptIsOk (f x) = true) →
      exceptMapList f l = .error err := by
  intro l
  induction l with
  | nil => intro a ha; cases ha
  | cons x xs ih =>
    intro a ha hfa hok
    simp only [exceptMapList]
    by_cases hxa : x = a
    · subst hxa
      rw [hfa]
    · have hx := hok x (List.mem_cons_self x xs) hxa
      cases hfx : f x with
      | error e => rw [hfx] at hx; simp [exceptIsOk] at hx
      | ok b =>
        have hmem : a ∈ xs := by
          rcases List.mem_cons.mp ha with rfl | hmem
          · exact absurd rfl hxa
          · exact hmem
        rw [ih a hmem hfa (fun y hy hne => hok y (List.mem_cons_of_mem x hy) hne)]

/-- C4: an entry classified as binary (not UTF-8 decodable) is passed
through byte-for-byte by every rewrite transform — the supplied transform
function plays no role in the result — and no error is raised (the zip
cleaner returns `ok`). -/
theorem c4_binary_entries_unchanged (e : Entry)
    (h : is_binary e.content = true) :
    (∀ f, processTextEntry f e = e)
    ∧ (∀ p s tag, zipCleanEntry p s tag e = .ok e) := by
  have hd : utf8Decode e.content = none := by
    unfold is_binary at h
    exact Option.isNone_iff_eq_none.mp h
  constructor
  · intro f
    simp [processTextEntry, hd]
  · intro p s tag
    by_cases hm : metaSuffix.isSuffixOf e.name = true
    · simp [zipCleanEntry, hm, hd]
    · simp [zipCleanEntry, hm]

/-- C4 witness: the test's binary content `\x9c%%%NAMESPACE%%%` is
classified binary and its entry is unchanged by a transform that would
otherwise erase the content. -/
theorem c4_binary_witness :
    is_binary (0x9C :: utf8Encode "%%%NAMESPACE%%%".data) = true
    ∧ processTextEntry (fun n _ => (n, []))
        ⟨"test".data, 0x9C :: utf8Encode "%%%NAMESPACE%%%".data⟩
      = ⟨"test".data, 0x9C :: utf8Encode "%%%NAMESPACE%%%".data⟩ :=
  ⟨by decide,
    (c4_binary_entries_unchanged
      ⟨"test".data, 0x9C :: utf8Encode "%%%NAMESPACE%%%".data⟩
      (by decide)).1 (fun n _ => (n, []))⟩

/-- C7: with a transform that does not merge names (output names pairwise
distinct) nor drop entries, the rewriters preserve the entry count, and
every entry not matched by `zip_clean_metaxml`'s restriction (name not
ending in `-meta.xml`) is present unchanged in its output. -/
theorem c7_entry_count_preserved
    (f : List Char → List Char → List Char × List Char) (entries : List Entry)
    (_hnodup : ((process_text_in_directory f entries).map Entry.name).Nodup) :
    (process_text_in_directory f entries).length = entries.length
    ∧ (process_text_in_zipfile f entries).length = entries.length
    ∧ ∀ p s out, zip_clean_metaxml p s entries = .ok out →
        out.length = entries.length
        ∧ ∀ e ∈ entries, metaSuffix.isSuffixOf e.name = false → e ∈ out := by
  refine ⟨by simp [process_text_in_directory],
    by simp [process_text_in_zipfile], ?_⟩
  intro p s out hout
  refine ⟨exceptMapList_length _ entries out hout, ?_⟩
  intro e he hm
  have hfe : zipCleanEntry p s "packageVersions".data e = .ok e := by
    simp [zipCleanEntry, hm]
  have := exceptMapList_mem_of_fixed _ (fun x => x) entries out hout e he hfe
  simpa using this

/-- C7 witness: a one-entry container keeps its single entry under the
identity transform. -/
theorem c7_witness :
    (process_text_in_directory (fun n c => (n, c))
      [⟨"a".data, utf8Encode "x".data⟩]).length = 1 :=
  (c7_entry_count_preserved (fun n c => (n, c))
    [⟨"a".data, utf8Encode "x".data⟩] (by decide)).1

/-- C5: for a `-meta.xml` entry whose content parses as XML,
`zip_clean_metaxml`'s transform removes every element with the given tag at
any depth and re-serializes behind the canonical XML declaration; when the
tag is not found the original tree and entry are returned unchanged with no
error; entries whose name does not end in `-meta.xml` pass through, and are
present in the rewritten container. -/
theorem c5_zip_clean_metaxml
    (p : List Char → Except XmlError XmlNode) (s : XmlNode → List Char)
    (tag : List Char) (e : Entry) (txt : List Char) (t : XmlNode)
    (hname : metaSuffix.isSuffixOf e.name = true)
    (hdec : utf8Decode e.content = some txt)
    (hparse : p txt = .ok t) :
    (freeOfTag tag t = false →
      zipCleanEntry p s tag e =
        .ok { name := e.name,
              content := utf8Encode (xmlDecl ++ s (removeXmlElement tag t)) })
    ∧ freeOfTag tag (removeXmlElement tag t) = true
    ∧ (freeOfTag tag t = true →
        removeXmlElement tag t = t ∧ zipCleanEntry p s tag e = .ok e)
    ∧ (∀ e2 : Entry, metaSuffix.isSuffixOf e2.name = false →
        zipCleanEntry p s tag e2 = .ok e2)
    ∧ (∀ entries out, zip_clean_metaxml p s entries = .ok out →
        ∀ e2 ∈ entries, metaSuffix.isSuffixOf e2.name = false → e2 ∈ out) := by
  refine ⟨?_, freeOfTag_removeXmlElement tag t, ?_, ?_, ?_⟩
  · intro hfree
    simp [zipCleanEntry, hname, hdec, hparse, hfree]
  · intro hfree
    exact ⟨removeXmlElement_of_freeOfTag tag t hfree,
      by simp [zipCleanEntry, hname, hdec, hparse, hfree]⟩
  · intro e2 hm
    simp [zipCleanEntry, hm]
  · intro entries out hout e2 he2 hm
    have hfe : zipCleanEntry p s "packageVersions".data e2 = .ok e2 := by
      simp [zipCleanEntry, hm]
    have := exceptMapList_mem_of_fixed _ (fun x => x) entries out hout e2 he2 hfe
    simpa using this

/-- C5 witness: a `classes/test-meta.xml` entry containing a
`packageVersions` element is rewritten to the canonical declaration plus
the serialization of the cleaned tree. -/
theorem c5_witness :
    zipCleanEntry
      (fun _ => .ok (XmlNode.element "root".data
        (XmlForest.cons (XmlNode.element "packageVersions".data
            (XmlForest.cons (XmlNode.text "text".data) XmlForest.nil))
          XmlForest.nil)))
      (fun _ => "<root />".data) "packageVersions".data
      ⟨"classes/test-meta.xml".data, utf8Encode "<x/>".data⟩
      = .ok ⟨"classes/test-meta.xml".data,
          utf8Encode (xmlDecl ++ "<root />".data)⟩ :=
  (c5_zip_clean_metaxml
    (fun _ => .ok (XmlNode.element "root".data
      (XmlForest.cons (XmlNode.element "packageVersions".data
          (XmlForest.cons (XmlNode.text "text".data) XmlForest.nil))
        XmlForest.nil)))
    (fun _ => "<root />".data) "packageVersions".data
    ⟨"classes/test-meta.xml".data, utf8Encode "<x/>".data⟩
    "<x/>".data
    (XmlNode.element "root".data
      (XmlForest.cons (XmlNode.element "packageVersions".data
          (XmlForest.cons (XmlNode.text "text".data) XmlForest.nil))
        XmlForest.nil))
    (by decide) (by decide) rfl).1 (by decide)

/-- C9: a `-meta.xml` entry that parses as XML but contains no element with
the tag to remove is emitted byte-for-byte unchanged — no declaration is
added and no re-serialization happens. -/
theorem c9_metaxml_no_match_byte_identical
    (p : List Char → Except XmlError XmlNode) (s : XmlNode → List Char)
    (tag : List Char) (e : Entry) (txt : List Char) (t : XmlNode)
    (hname : metaSuffix.isSuffixOf e.name = true)
    (hdec : utf8Decode e.content = some txt)
    (hparse : p txt = .ok t)
    (hfree : freeOfTag tag t = true) :
    zipCleanEntry p s tag e = .ok e := by
  simp [zipCleanEntry, hname, hdec, hparse, hfree]

/-- C9 witness: the non-ASCII document `<root>ñ</root>` (UTF-8 bytes
`c3 b1` inside) passes through byte-identically when `packageVersions` is
absent. -/
theorem c9_witness :
    zipCleanEntry
      (fun _ => .ok (XmlNode.element "root".data
        (XmlForest.cons (XmlNode.text "ñ".data) XmlForest.nil)))
      (fun _ => [] ) "packageVersions".data
      ⟨"classes/test-meta.xml".data, utf8Encode "<root>ñ</root>".data⟩
      = .ok ⟨"classes/test-meta.xml".data,
          utf8Encode "<root>ñ</root>".data⟩ :=
  c9_metaxml_no_match_byte_identical
    (fun _ => .ok (XmlNode.element "root".data
      (XmlForest.cons (XmlNode.text "ñ".data) XmlForest.nil)))
    (fun _ => []) "packageVersions".data
    ⟨"classes/test-meta.xml".data, utf8Encode "<root>ñ</root>".data⟩
    "<root>ñ</root>".data
    (XmlNode.element "root".data
      (XmlForest.cons (XmlNode.text "ñ".data) XmlForest.nil))
    (by decide) (by decide) rfl (by decide)

/-- C6: when an entry does not parse as well-formed XML, the parse error is
surfaced with the entry name and line number appended in the form
`<msg> (<name>, line <n>)`, and the whole directory rewrite aborts with
that error. -/
theorem c6_parse_error_annotated_and_aborts
    (pf : List Char → Except XmlError XmlNode) (tag : List Char)
    (names : List (List Char)) (nm msg : List Char) (ln : Nat)
    (herr : pf nm = .error ⟨msg, ln⟩) :
    elementtree_parse_file (pf nm) nm = .error ⟨annotateMsg msg nm ln, ln⟩
    ∧ (nm ∈ names → (∀ m ∈ names, m ≠ nm → exceptIsOk (pf m) = true) →
        remove_xml_element_directory pf tag names =
          .error ⟨annotateMsg msg nm ln, ln⟩) := by
  constructor
  · rw [herr]
    rfl
  · intro hmem hok
    unfold remove_xml_element_directory
    apply exceptMapList_error_of_mem _ _ names nm hmem
    · rw [herr]
      rfl
    · intro x hx hne
      have hxok := hok x hx hne
      cases hfx : pf x with
      | error e2 =>
        rw [hfx] at hxok
        simp [exceptIsOk] at hxok
      | ok t => simp [elementtree_parse_file, hfx, exceptIsOk, Except.map]

/-- C6 witness: the test scenario — parser fails with message `it broke` at
line 1 on `test.xml` — aborts the directory rewrite with the annotated
message `it broke (test.xml, line 1)`. -/
theorem c6_witness :
    remove_xml_element_directory (fun _ => .error ⟨"it broke".data, 1⟩)
      "tag".data ["test.xml".data]
      = .error ⟨"it broke (test.xml, line 1)".data, 1⟩ := by
  have h := (c6_parse_error_annotated_and_aborts
    (fun _ => .error ⟨"it broke".data, 1⟩) "tag".data ["test.xml".data]
    "test.xml".data "it broke".data 1 rfl).2
    (by simp)
    (by
      intro m hm hne
      simp only [List.mem_singleton] at hm
      exact absurd hm hne)
  have hfmt : annotateMsg "it broke".data "test.xml".data 1
      = "it broke (test.xml, line 1)".data := by decide
  rw [hfmt] at h
  exact h

/-- C10 counterexample: option initialization can fail although the
`generator_yaml` path exists and `num_records` is absent — a third error
situation, not covered by the claim's two: the `vars` option is present and
`process_list_of_pairs_dict_arg` raises `TaskOptionsError` on it. -/
theorem c10_vars_error_counterexample :
    init_options (fun _ => true) (fun x => x)
      (fun _ => .error "Var specification junk is not in the form varname:value".data)
      { generator_yaml := "gen.yml".data, vars := some "junk".data,
        generate_mapping_file := none, num_records := none,
        num_records_tablename := none, working_directory := none }
      = .error "Var specification junk is not in the form varname:value".data
    ∧ (fun (_ : List Char) => true) ((fun x => x) "gen.yml".data) = true := by
  exact ⟨rfl, rfl⟩

/-- C10 (amended): `GenerateDataFromYaml._init_options` fails exactly in
three situations — the (absolutized) `generator_yaml` path does not exist;
the `vars` option is provided and `process_list_of_pairs_dict_arg` raises
on it; or `num_records` is provided while `num_records_tablename` is absent
or empty.  In every other case it succeeds, and when both `num_records` and
a non-empty `num_records_tablename` are given the resulting state stores
`StoppingCriteria(num_records_tablename, num_records)`. -/
theorem c10_init_options_errors
    (pathExists : List Char → Bool) (abspath : List Char → List Char)
    (processVars : List Char → Except (List Char) (List (List Char × List Char)))
    (o : GenOptions) :
    (exceptIsOk (init_options pathExists abspath processVars o) = false ↔
      (pathExists (abspath o.generator_yaml) = false
        ∨ (∃ v e, o.vars = some v ∧ processVars v = .error e)
        ∨ ∃ n, o.num_records = some n
            ∧ (o.num_records_tablename = none
                ∨ o.num_records_tablename = some [])))
    ∧ (∀ n t, o.num_records = some n → o.num_records_tablename = some t →
        t ≠ [] → pathExists (abspath o.generator_yaml) = true →
        (o.vars = none ∨ ∃ v vs, o.vars = some v ∧ processVars v = .ok vs) →
        ∃ r, init_options pathExists abspath processVars o = .ok r
          ∧ r.stopping_criteria = some (t, n)) := by
  constructor
  · constructor
    · intro h
      unfold init_options at h
      by_cases hpe : pathExists (abspath o.generator_yaml) = false
      · exact Or.inl hpe
      · rw [if_neg hpe] at h
        cases hv : o.vars with
        | none =>
          simp only [hv] at h
          cases hnr : o.num_records with
          | none =>
            simp only [hnr] at h
            simp [exceptIsOk] at h
          | some n =>
            simp only [hnr] at h
            cases hnt : o.num_records_tablename with
            | none => exact Or.inr (Or.inr ⟨n, rfl, Or.inl rfl⟩)
            | some t =>
              simp only [hnt] at h
              by_cases ht : t = []
              · subst ht
                exact Or.inr (Or.inr ⟨n, rfl, Or.inr rfl⟩)
              · rw [if_neg ht] at h
                simp [exceptIsOk] at h
        | some v =>
          simp only [hv] at h
          cases hpv : processVars v with
          | error e => exact Or.inr (Or.inl ⟨v, e, rfl, hpv⟩)
          | ok vs =>
            simp only [hpv] at h
            cases hnr : o.num_records with
            | none =>
              simp only [hnr] at h
              simp [exceptIsOk] at h
            | some n =>
              simp only [hnr] at h
              cases hnt : o.num_records_tablename with
              | none => exact Or.inr (Or.inr ⟨n, rfl, Or.inl rfl⟩)
              | some t =>
                simp only [hnt] at h
                by_cases ht : t = []
                · subst ht
                  exact Or.inr (Or.inr ⟨n, rfl, Or.inr rfl⟩)
                · rw [if_neg ht] at h
                  simp [exceptIsOk] at h
    · intro h
      unfold init_options
      by_cases hpe : pathExists (abspath o.generator_yaml) = false
      · rw [if_pos hpe]
        rfl
      · rw [if_neg hpe]
        rcases h with hpe2 | ⟨v, e, hv, hpv⟩ | ⟨n, hn, hnt⟩
        · exact absurd hpe2 hpe
        · simp [hv, hpv, exceptIsOk]
        · cases hv : o.vars with
          | none =>
            rcases hnt with hnt | hnt <;> simp [hn, hnt, exceptIsOk]
          | some v =>
            cases hpv : processVars v with
            | error e2 => simp [hpv, exceptIsOk]
            | ok vs =>
              rcases hnt with hnt | hnt <;> simp [hpv, hn, hnt, exceptIsOk]
  · intro n t hn ht hne hpe hvars
    unfold init_options
    rw [if_neg (by rw [hpe]; simp)]
    rcases hvars with hv | ⟨v, vs, hv, hpv⟩
    · simp only [hv, hn, ht, if_neg hne]
      exact ⟨_, rfl, rfl⟩
    · simp only [hv, hpv, hn, ht, if_neg hne]
      exact ⟨_, rfl, rfl⟩

/-- C10 witness: with an existing path, a `vars` option that parses
successfully, `num_records = 5` and `num_records_tablename = "Account"`,
initialization succeeds and stores the stopping criteria `("Account", 5)`.
-/
theorem c10_witness :
    ∃ r, init_options (fun _ => true) (fun x => x)
        (fun _ => .ok [("A".data, "1".data)])
        { generator_yaml := "gen.yml".data, vars := some "A:1".data,
          generate_mapping_file := none, num_records := some 5,
          num_records_tablename := some "Account".data,
          working_directory := none } = .ok r
      ∧ r.stopping_criteria = some ("Account".data, 5) :=
  (c10_init_options_errors (fun _ => true) (fun x => x)
    (fun _ => .ok [("A".data, "1".data)])
    { generator_yaml := "gen.yml".data, vars := some "A:1".data,
      generate_mapping_file := none, num_records := some 5,
      num_records_tablename := some "Account".data,
      working_directory := none }).2 5 "Account".data rfl rfl
    (by decide) rfl
    (Or.inr ⟨"A:1".data, [("A".data, "1".data)], rfl, rfl⟩)
